import Mathlib

/-!
Verification of the elliptic-curve arithmetic core (short Weierstrass curves
over a prime field): the extended Euclidean algorithm, the modular
multiplicative inverse, and the curve point group-law operations
(add, negate, scalar multiply).

The definitions below are shallow embeddings of the Rust source:
  - extended_euclidean.rs : extended_euclidean
  - multiplicative_inverse.rs : mod_mul_inverse
  - curve_point.rs : CurvePoint.add / CurvePoint.negate / CurvePoint.multiply
  - weierstrass_curve.rs : WeierstrassCurve.add /
      WeierstrassCurve.negate_point / WeierstrassCurve.modular_multiplicative_inverse

Arbitrary-precision integers (num BigInt) are modelled by Int.  The Rust
division operator on BigInt truncates toward zero, which is Int.tdiv; the
Rust rem_euclid produces the least nonnegative residue, which is Int.emod
(for a nonzero modulus).  The while loops of the source are modelled with an
explicit fuel argument so that every definition is structurally recursive
and computes by kernel reduction; a fuel-irrelevance lemma shows the chosen
fuel is large enough, so the embedding agrees with the source loop.
-/

/-- Result record of the extended Euclidean algorithm, from
extended_euclidean.rs: gcd together with the two Bezout coefficients. -/
structure ExtendedEuclideanResult where
  gcd : Int
  bezout_coefficient_a : Int
  bezout_coefficient_b : Int
  deriving DecidableEq

/-- The while loop of extended_euclidean in extended_euclidean.rs.  State is
(remainder_prev, remainder, s_prev, s, t_prev, t); each iteration divides
(Rust BigInt division truncates toward zero, hence Int.tdiv) and updates the
three sequences in lock-step.  The loop runs until the remainder is zero;
the absolute value of the remainder strictly decreases each iteration, so
any fuel larger than the absolute value of the initial remainder makes this
total function agree with the source loop (euclidLoop_fuel_irrelevant). -/
def euclidLoop : Nat → Int → Int → Int → Int → Int → Int → Int × Int × Int
  | 0, remainder_prev, _, s_prev, _, t_prev, _ => (remainder_prev, s_prev, t_prev)
  | fuel + 1, remainder_prev, remainder, s_prev, s, t_prev, t =>
    if remainder = 0 then (remainder_prev, s_prev, t_prev)
    else
      let quotient := Int.tdiv remainder_prev remainder
      euclidLoop fuel remainder (remainder_prev - quotient * remainder)
        s (s_prev - quotient * s) t (t_prev - quotient * t)

/-- Runs the extended euclidean algorithm on a and b
(extended_euclidean.rs).  Seeding depends on whether a is greater than b, so
that the larger argument becomes the first remainder; in both branches
s tracks the coefficient of the original a and t the coefficient of the
original b.  After the loop, a negative terminal remainder is negated
together with both coefficients so the returned gcd is nonnegative. -/
def extended_euclidean (a b : Int) : ExtendedEuclideanResult :=
  let st :=
    if a > b then euclidLoop (b.natAbs + 1) a b 1 0 0 1
    else euclidLoop (a.natAbs + 1) b a 0 1 1 0
  if st.1 < 0 then ⟨-st.1, -st.2.1, -st.2.2⟩
  else ⟨st.1, st.2.1, st.2.2⟩

/-- Computes the modular multiplicative inverse of a mod b
(multiplicative_inverse.rs): the Bezout coefficient of a, reduced with
rem_euclid (Int.emod) into the least nonnegative residue. -/
def mod_mul_inverse (a b : Int) : Int :=
  Int.emod (extended_euclidean a b).bezout_coefficient_a b

/-- A point on a curve or the point at infinity (the Point enum of
curve_point.rs, also the CurvePoint enum of weierstrass_curve.rs). -/
inductive Point where
  | pointAtInfinity : Point
  | point (x y : Int) : Point
  deriving DecidableEq

/-- The curve parameterization: the field modulus and the linear
coefficient a of the curve equation.  These are the data supplied by the
WeierstrassCurve trait of curve_point.rs (methods a and field_modulus) and
stored in the WeierstrassCurve struct of weierstrass_curve.rs (fields
field_modulus and parameter_a).  The generator plays no role in the
operations and is omitted. -/
structure CurveParams where
  field_modulus : Int
  a : Int
  deriving DecidableEq

/-- Fuel-based base-2 logarithm: halve until the argument drops below 2.
Fuel equal to the argument itself always suffices (the argument at least
halves each step), see bitsMinusOne_spec. -/
def log2Fuel : Nat → Nat → Nat
  | 0, _ => 0
  | fuel + 1, n => if n ≥ 2 then log2Fuel fuel (n / 2) + 1 else 0

/-- The quantity bits() - 1 used by the multiply loops: for n positive this
is the index of the highest set bit of n, i.e. the floor of log2 n. -/
def bitsMinusOne (n : Nat) : Nat := log2Fuel n n

namespace CurvePoint

/-- CurvePoint::add of curve_point.rs: chord-and-tangent addition.  The
branch on p == q compares both coordinates; every coordinate of a computed
point is reduced with rem_euclid (Int.emod). -/
def add (C : CurveParams) (p q : Point) : Point :=
  match p, q with
  | .pointAtInfinity, .pointAtInfinity => .pointAtInfinity
  | .pointAtInfinity, .point x y => .point x y
  | .point x y, .pointAtInfinity => .point x y
  | .point x_p y_p, .point x_q y_q =>
    if x_p = x_q ∧ y_p = y_q then
      let lambda := (3 * x_p ^ 2 + C.a) * mod_mul_inverse (2 * y_p) C.field_modulus
      let lambda := Int.emod lambda C.field_modulus
      let x_r := lambda ^ 2 - 2 * x_p
      let x_r := Int.emod x_r C.field_modulus
      let y_r := lambda * (-x_r + x_p) - y_p
      let y_r := Int.emod y_r C.field_modulus
      .point x_r y_r
    else if x_p = x_q then
      .pointAtInfinity
    else
      let lambda := (y_q - y_p) * mod_mul_inverse (x_q - x_p) C.field_modulus
      let lambda := Int.emod lambda C.field_modulus
      let x_r := lambda ^ 2 - x_p - x_q
      let x_r := Int.emod x_r C.field_modulus
      let y_r := lambda * (x_p - x_r) - y_p
      let y_r := Int.emod y_r C.field_modulus
      .point x_r y_r

/-- CurvePoint::negate of curve_point.rs.  Note: the source computes the
modular multiplicative inverse of the y-coordinate (mod_mul_inverse), not
its additive inverse. -/
def negate (C : CurveParams) (p : Point) : Point :=
  match p with
  | .pointAtInfinity => .pointAtInfinity
  | .point x y => .point x (mod_mul_inverse y C.field_modulus)

/-- The doubling cache of CurvePoint::multiply: entry i is the result of
doubling p i times (the source stores the entries in a vector; the loop
only ever reads indices that this function also defines). -/
def doubleCache (C : CurveParams) (p : Point) : Nat → Point
  | 0 => p
  | i + 1 => add C (doubleCache C p i) (doubleCache C p i)

/-- The accumulation loop of CurvePoint::multiply: while the scalar is
nonzero, take its highest set bit (bits() - 1, i.e. bitsMinusOne), clear it
and add the cached entry for that bit.  The scalar strictly decreases each
iteration, so fuel equal to the initial scalar suffices
(mulLoop_fuel_irrelevant). -/
def mulLoop (C : CurveParams) (cache : Nat → Point) : Nat → Nat → Point → Point
  | 0, _, result => result
  | fuel + 1, scalar, result =>
    if scalar = 0 then result
    else
      let b := bitsMinusOne scalar
      mulLoop C cache fuel (scalar - 2 ^ b) (add C result (cache b))

/-- CurvePoint::multiply of curve_point.rs: double-and-add scalar
multiplication.  A zero scalar returns the point at infinity immediately.
The scalar is a nonnegative integer (negative scalars are outside the
defined behavior of the source, whose loop would not terminate on them). -/
def multiply (C : CurveParams) (scalar : Nat) (p : Point) : Point :=
  if scalar = 0 then .pointAtInfinity
  else mulLoop C (doubleCache C p) scalar scalar .pointAtInfinity

end CurvePoint

namespace WeierstrassCurve

/-- WeierstrassCurve::modular_multiplicative_inverse of weierstrass_curve.rs:
returns the raw Bezout coefficient of a, with no reduction into the least
nonnegative residue. -/
def modular_multiplicative_inverse (a b : Int) : Int :=
  (extended_euclidean a b).bezout_coefficient_a

/-- WeierstrassCurve::add of weierstrass_curve.rs: identical to
CurvePoint::add except that the slope uses the unreduced
modular_multiplicative_inverse (the slope is reduced afterwards). -/
def add (C : CurveParams) (p q : Point) : Point :=
  match p, q with
  | .pointAtInfinity, .pointAtInfinity => .pointAtInfinity
  | .pointAtInfinity, .point x y => .point x y
  | .point x y, .pointAtInfinity => .point x y
  | .point x_p y_p, .point x_q y_q =>
    if x_p = x_q ∧ y_p = y_q then
      let lambda := (3 * x_p ^ 2 + C.a) *
        modular_multiplicative_inverse (2 * y_p) C.field_modulus
      let lambda := Int.emod lambda C.field_modulus
      let x_r := lambda ^ 2 - 2 * x_p
      let x_r := Int.emod x_r C.field_modulus
      let y_r := lambda * (-x_r + x_p) - y_p
      let y_r := Int.emod y_r C.field_modulus
      .point x_r y_r
    else if x_p = x_q then
      .pointAtInfinity
    else
      let lambda := (y_q - y_p) *
        modular_multiplicative_inverse (x_q - x_p) C.field_modulus
      let lambda := Int.emod lambda C.field_modulus
      let x_r := lambda ^ 2 - x_p - x_q
      let x_r := Int.emod x_r C.field_modulus
      let y_r := lambda * (x_p - x_r) - y_p
      let y_r := Int.emod y_r C.field_modulus
      .point x_r y_r

/-- WeierstrassCurve::negate_point of weierstrass_curve.rs: keeps the
x-coordinate and replaces y by its raw (unreduced) modular multiplicative
inverse. -/
def negate_point (C : CurveParams) (p : Point) : Point :=
  match p with
  | .pointAtInfinity => .pointAtInfinity
  | .point x y => .point x (modular_multiplicative_inverse y C.field_modulus)

end WeierstrassCurve

/-- The small test curve of the repository tests: y^2 = x^3 + 0 over F_11. -/
def testCurve : CurveParams := ⟨11, 0⟩

/-- A degenerate parameter set (modulus 4, coefficient 1) used to exhibit
the behavior of the operations on inputs outside a prime field. -/
def junkCurve : CurveParams := ⟨4, 1⟩

/-- Repeated self-addition from a generator g, as performed by the
can_generate_all_points test: step n + 1 is add g (step n), starting at g. -/
def generatorIterate (C : CurveParams) (g : Point) : Nat → Point
  | 0 => g
  | n + 1 => CurvePoint.add C g (generatorIterate C g n)

/-- Same repeated self-addition using the add of weierstrass_curve.rs. -/
def wGeneratorIterate (C : CurveParams) (g : Point) : Nat → Point
  | 0 => g
  | n + 1 => WeierstrassCurve.add C g (wGeneratorIterate C g n)

/-- Modelled from the spec: the k-fold repeated addition P + P + ...
(k times, starting from PointAtInfinity), the reference semantics that
scalar multiplication is claimed to refine (also the loop of the
scalar_point_multiplication test). -/
def repeatedAdd (C : CurveParams) (p : Point) : Nat → Point
  | 0 => .pointAtInfinity
  | k + 1 => CurvePoint.add C (repeatedAdd C p k) p

/-- Both coordinates of an affine point lie in the interval from 0
(inclusive) to m (exclusive); the point at infinity has no coordinates and
satisfies the condition vacuously. -/
def coordinatesInRange (m : Int) (p : Point) : Prop :=
  match p with
  | .pointAtInfinity => True
  | .point x y => 0 ≤ x ∧ x < m ∧ 0 ≤ y ∧ y < m

instance (m : Int) (p : Point) : Decidable (coordinatesInRange m p) :=
  match p with
  | .pointAtInfinity => .isTrue trivial
  | .point _ _ => inferInstanceAs (Decidable (_ ∧ _ ∧ _ ∧ _))

/-! ## Fuel irrelevance

The loops are embedded with explicit fuel.  These lemmas show the result
does not depend on the fuel once the fuel exceeds the loop variant
(the absolute value of the remainder, respectively the scalar), so the
definitions above agree with the while loops of the source. -/

/-- The absolute value of a truncated remainder is strictly smaller than
the absolute value of the (nonzero) divisor. -/
theorem natAbs_tmod_lt (a : Int) {b : Int} (hb : b ≠ 0) :
    (Int.tmod a b).natAbs < b.natAbs := by
  have habs : (Int.tmod a b).natAbs = a.natAbs % b.natAbs := by
    cases a <;> cases b <;>
      simp only [Int.tmod, Int.natAbs_neg] <;>
      rfl
  rw [habs]
  exact Nat.mod_lt _ (Int.natAbs_pos.mpr hb)

theorem euclidLoop_fuel_irrelevant (fuel fuel' : Nat) :
    ∀ rp r sp s tp t, r.natAbs < fuel → r.natAbs < fuel' →
      euclidLoop fuel rp r sp s tp t = euclidLoop fuel' rp r sp s tp t := by
  induction fuel generalizing fuel' with
  | zero => intro rp r sp s tp t h _; omega
  | succ n ih =>
    intro rp r sp s tp t h h'
    cases fuel' with
    | zero => omega
    | succ m =>
      by_cases hr : r = 0
      · simp [euclidLoop, hr]
      · simp only [euclidLoop, hr, if_false]
        have hlt : (rp - Int.tdiv rp r * r).natAbs < r.natAbs := by
          have : rp - Int.tdiv rp r * r = Int.tmod rp r := by
            rw [Int.tmod_def]; ring
          rw [this]
          exact natAbs_tmod_lt rp hr
        exact ih m r (rp - Int.tdiv rp r * r) s (sp - Int.tdiv rp r * s)
          t (tp - Int.tdiv rp r * t) (by omega) (by omega)

theorem mulLoop_fuel_irrelevant (C : CurveParams) (cache : Nat → Point)
    (fuel fuel' : Nat) :
    ∀ scalar result, scalar ≤ fuel → scalar ≤ fuel' →
      CurvePoint.mulLoop C cache fuel scalar result
        = CurvePoint.mulLoop C cache fuel' scalar result := by
  induction fuel generalizing fuel' with
  | zero =>
    intro scalar result h _
    have hs : scalar = 0 := by omega
    subst hs
    cases fuel' <;> simp [CurvePoint.mulLoop]
  | succ n ih =>
    intro scalar result h h'
    by_cases hs : scalar = 0
    · subst hs; cases fuel' <;> simp [CurvePoint.mulLoop]
    · cases fuel' with
      | zero => omega
      | succ m =>
        simp only [CurvePoint.mulLoop, hs, if_false]
        have hpow : 0 < 2 ^ bitsMinusOne scalar := Nat.pos_pow_of_pos _ (by omega)
        exact ih m (scalar - 2 ^ bitsMinusOne scalar) _ (by omega) (by omega)

/-! ## Correctness of the extended Euclidean algorithm -/

/-- One Euclidean step keeps the gcd of the remainder pair unchanged. -/
theorem gcd_step (rp r q : Int) : Int.gcd r (rp - q * r) = Int.gcd rp r := by
  apply Nat.dvd_antisymm
  · have h1 : (↑(Int.gcd r (rp - q * r)) : Int) ∣ r := Int.gcd_dvd_left
    have h2 : (↑(Int.gcd r (rp - q * r)) : Int) ∣ rp - q * r := Int.gcd_dvd_right
    have h3 : (↑(Int.gcd r (rp - q * r)) : Int) ∣ rp := by
      have h4 := dvd_add h2 (h1.mul_left q)
      simpa using h4
    exact Int.natCast_dvd_natCast.mp (Int.dvd_gcd h3 h1)
  · have h1 : (↑(Int.gcd rp r) : Int) ∣ rp := Int.gcd_dvd_left
    have h2 : (↑(Int.gcd rp r) : Int) ∣ r := Int.gcd_dvd_right
    exact Int.natCast_dvd_natCast.mp (Int.dvd_gcd h2 (dvd_sub h1 (h2.mul_left q)))

/-- Loop invariant of euclidLoop: if both tracked remainders satisfy the
Bezout identity for the original pair (A, B), so does the returned terminal
remainder, and its absolute value is the gcd of the remainder pair. -/
theorem euclidLoop_spec (A B : Int) (fuel : Nat) :
    ∀ rp r sp s tp t, r.natAbs < fuel →
      rp = A * sp + B * tp → r = A * s + B * t →
      (euclidLoop fuel rp r sp s tp t).1
          = A * (euclidLoop fuel rp r sp s tp t).2.1
            + B * (euclidLoop fuel rp r sp s tp t).2.2
        ∧ ((euclidLoop fuel rp r sp s tp t).1).natAbs = Int.gcd rp r := by
  induction fuel with
  | zero => intro rp r sp s tp t h _ _; omega
  | succ n ih =>
    intro rp r sp s tp t h h1 h2
    by_cases hr : r = 0
    · subst hr
      have hstop : euclidLoop (n + 1) rp 0 sp s tp t = (rp, sp, tp) := by
        simp [euclidLoop]
      rw [hstop]
      exact ⟨h1, by rw [Int.gcd_zero_right]⟩
    · have hstep : euclidLoop (n + 1) rp r sp s tp t
          = euclidLoop n r (rp - Int.tdiv rp r * r)
              s (sp - Int.tdiv rp r * s) t (tp - Int.tdiv rp r * t) := by
        simp [euclidLoop, hr]
      have hlt : (rp - Int.tdiv rp r * r).natAbs < n := by
        have heq : rp - Int.tdiv rp r * r = Int.tmod rp r := by
          rw [Int.tmod_def]; ring
        have hb := natAbs_tmod_lt rp hr
        omega
      obtain ⟨hb, hg⟩ := ih r (rp - Int.tdiv rp r * r)
        s (sp - Int.tdiv rp r * s) t (tp - Int.tdiv rp r * t)
        hlt h2 (by rw [h1, h2]; ring)
      rw [hstep]
      exact ⟨hb, by rw [hg, gcd_step]⟩

/-- Full specification of extended_euclidean: the Bezout identity holds for
the returned coefficients, and the returned gcd is the (nonnegative)
greatest common divisor of the two arguments. -/
theorem extended_euclidean_spec (a b : Int) :
    a * (extended_euclidean a b).bezout_coefficient_a
        + b * (extended_euclidean a b).bezout_coefficient_b
      = (extended_euclidean a b).gcd
  ∧ (extended_euclidean a b).gcd = (Int.gcd a b : Int) := by
  simp only [extended_euclidean]
  by_cases hab : a > b
  · obtain ⟨hb, hg⟩ := euclidLoop_spec a b (b.natAbs + 1) a b 1 0 0 1
      (by omega) (by ring) (by ring)
    simp only [if_pos hab]
    split_ifs with hneg
    · exact ⟨by dsimp only; linear_combination hb, by dsimp only; omega⟩
    · exact ⟨by dsimp only; linear_combination -hb, by dsimp only; omega⟩
  · obtain ⟨hb, hg⟩ := euclidLoop_spec a b (a.natAbs + 1) b a 0 1 1 0
      (by omega) (by ring) (by ring)
    rw [Int.gcd_comm b a] at hg
    simp only [if_neg hab]
    split_ifs with hneg
    · exact ⟨by dsimp only; linear_combination hb, by dsimp only; omega⟩
    · exact ⟨by dsimp only; linear_combination -hb, by dsimp only; omega⟩

/-- C1: for all integers a and b (either sign, either or both possibly
zero), extended_euclidean a b returns (gcd, s, t) with a * s + b * t = gcd
and gcd nonnegative, where s is the coefficient of the original a and t the
coefficient of the original b regardless of the seeding branch; in
particular the gcd is 0 for (0, 0), the absolute value of a for (a, 0) and
the absolute value of b for (0, b). -/
theorem extended_euclidean_correct (a b : Int) :
    a * (extended_euclidean a b).bezout_coefficient_a
        + b * (extended_euclidean a b).bezout_coefficient_b
      = (extended_euclidean a b).gcd
  ∧ 0 ≤ (extended_euclidean a b).gcd
  ∧ (b = 0 → (extended_euclidean a b).gcd = (a.natAbs : Int))
  ∧ (a = 0 → (extended_euclidean a b).gcd = (b.natAbs : Int))
  ∧ (a = 0 → b = 0 → (extended_euclidean a b).gcd = 0) := by
  obtain ⟨hbez, hg⟩ := extended_euclidean_spec a b
  refine ⟨hbez, by omega, ?_, ?_, ?_⟩
  · intro hb; subst hb; rw [hg, Int.gcd_zero_right]
  · intro ha; subst ha; rw [hg, Int.gcd_zero_left]
  · intro ha hb; subst ha; subst hb; rw [hg]; rfl

/-- Witness for C1: the edge-case conclusions instantiated at (-5, 0),
(0, -7) and (0, 0). -/
theorem extended_euclidean_correct_witness :
    (extended_euclidean (-5) 0).gcd = ((-5 : Int).natAbs : Int)
  ∧ (extended_euclidean 0 (-7)).gcd = ((-7 : Int).natAbs : Int)
  ∧ (extended_euclidean 0 0).gcd = 0 :=
  ⟨(extended_euclidean_correct (-5) 0).2.2.1 rfl,
   (extended_euclidean_correct 0 (-7)).2.2.2.1 rfl,
   (extended_euclidean_correct 0 0).2.2.2.2 rfl rfl⟩

/-! ## The modular multiplicative inverse -/

/-- When a is coprime to m, the product of a with its computed inverse is
congruent to 1 modulo m. -/
theorem mod_mul_inverse_mul_modEq (a m : Int) (hcop : Int.gcd a m = 1) :
    a * mod_mul_inverse a m ≡ 1 [ZMOD m] := by
  obtain ⟨hbez, hg⟩ := extended_euclidean_spec a m
  have hbez1 : a * (extended_euclidean a m).bezout_coefficient_a
      + m * (extended_euclidean a m).bezout_coefficient_b = 1 := by
    rw [hg, hcop] at hbez
    exact_mod_cast hbez
  have h1 : a * (extended_euclidean a m).bezout_coefficient_a ≡ 1 [ZMOD m] := by
    rw [Int.modEq_iff_dvd]
    exact ⟨(extended_euclidean a m).bezout_coefficient_b, by linear_combination -hbez1⟩
  have h2 : mod_mul_inverse a m
      ≡ (extended_euclidean a m).bezout_coefficient_a [ZMOD m] :=
    Int.mod_modEq _ m
  exact (h2.mul_left a).trans h1

/-- C2 (amended): for every integer a and every modulus m greater than 1
with a and m coprime, mod_mul_inverse a m is an integer i with
(a * i) mod m = 1 and 0 <= i < m, the canonical least nonnegative residue.
(As stated the claim also allowed m = 1, where the inverse is 0 and
(a * 0) mod 1 = 0, never 1; see the counterexample.) -/
theorem mod_mul_inverse_correct (a m : Int) (hm : 1 < m) (hcop : Int.gcd a m = 1) :
    (a * mod_mul_inverse a m) % m = 1
  ∧ 0 ≤ mod_mul_inverse a m ∧ mod_mul_inverse a m < m := by
  have h1 := mod_mul_inverse_mul_modEq a m hcop
  refine ⟨?_, Int.emod_nonneg _ (by omega), Int.emod_lt_of_pos _ (by omega)⟩
  have h2 : (a * mod_mul_inverse a m) % m = 1 % m := h1
  rw [h2, Int.emod_eq_of_lt (by omega) (by omega)]

/-- Witness for C2: the inverse of 2 modulo 11 (it is 6). -/
theorem mod_mul_inverse_correct_witness :
    (2 * mod_mul_inverse 2 11) % 11 = 1
  ∧ 0 ≤ mod_mul_inverse 2 11 ∧ mod_mul_inverse 2 11 < 11 :=
  mod_mul_inverse_correct 2 11 (by decide) (by decide)

/-- Counterexample for C2 as stated: at a = 1, m = 1 the modulus is
positive and gcd(1, 1) = 1, yet (1 * mod_mul_inverse 1 1) mod 1 = 0,
not 1. -/
theorem mod_mul_inverse_claim_counterexample :
    (0 : Int) < 1 ∧ Int.gcd 1 1 = 1
  ∧ ¬ ((1 * mod_mul_inverse 1 1) % 1 = 1) := by decide

/-- C3: contrary to the claim, mod_mul_inverse signals nothing.  With
gcd(2, 4) = 2 it silently returns the value 1 (which is not an inverse:
2 * 1 mod 4 = 2), and with the invalid modulus -5 it silently returns the
value 3; there is no NoInverse or InvalidModulus failure path anywhere in
its result type. -/
theorem mod_mul_inverse_silently_returns :
    mod_mul_inverse 2 4 = 1
  ∧ ¬ ((2 * mod_mul_inverse 2 4) % 4 = 1)
  ∧ mod_mul_inverse 2 (-5) = 3 := by decide

/-! ## Concrete group-law facts on the small test curve -/

/-- C4: contrary to the claim, negate does not send (x, y) to
(x, (m - y) mod m): on the test curve over F_11 it maps (4, 10) to
(4, 10) itself (the multiplicative inverse of 10 mod 11 is 10), while the
additive inverse of the y-coordinate would give (4, 1).  The same holds for
the weierstrass_curve.rs variant up to reduction. -/
theorem negate_not_additive_inverse :
    CurvePoint.negate testCurve (.point 4 10) = .point 4 10
  ∧ (.point 4 ((11 - 10) % 11) : Point) = .point 4 1
  ∧ CurvePoint.negate testCurve (.point 4 10) ≠ .point 4 1 := by decide

/-- C5: adding two equal-x unequal-y points does return the point at
infinity, but doubling the point (2, 0) (whose y-coordinate is 0) on the
test curve over F_11 returns the finite point (7, 0) instead of the
claimed point at infinity: the p = q branch runs first and uses
mod_mul_inverse (2 * 0) 11 = 0 as the slope denominator. -/
theorem double_y_zero_not_infinity :
    CurvePoint.add testCurve (.point 4 10) (.point 4 1) = .pointAtInfinity
  ∧ CurvePoint.add testCurve (.point 2 0) (.point 2 0) = .point 7 0
  ∧ WeierstrassCurve.add testCurve (.point 2 0) (.point 2 0) = .point 7 0 := by decide

/-- C7: contrary to the claim, add P (negate P) is not the point at
infinity for every P: on the test curve over F_11, negate maps (4, 10) to
itself, so the sum is the doubling (7, 7). -/
theorem add_negate_not_infinity :
    CurvePoint.negate testCurve (.point 4 10) = .point 4 10
  ∧ CurvePoint.add testCurve (.point 4 10)
      (CurvePoint.negate testCurve (.point 4 10)) = .point 7 7 := by decide

/-- C9: on the test curve y^2 = x^3 + 0 over F_11 with generator (4, 10),
repeated addition of the generator cycles through exactly the 12-point
sequence of the claim before returning to (4, 10); the same holds for the
add of weierstrass_curve.rs. -/
theorem generator_cycle :
    (List.range 13).map (generatorIterate testCurve (.point 4 10))
      = [.point 4 10, .point 7 7, .point 1 9, .point 0 6, .point 8 8,
         .point 2 0, .point 8 3, .point 0 5, .point 1 2, .point 7 4,
         .point 4 1, .pointAtInfinity, .point 4 10]
  ∧ (List.range 13).map (wGeneratorIterate testCurve (.point 4 10))
      = [.point 4 10, .point 7 7, .point 1 9, .point 0 6, .point 8 8,
         .point 2 0, .point 8 3, .point 0 5, .point 1 2, .point 7 4,
         .point 4 1, .pointAtInfinity, .point 4 10] := by decide

/-- Counterexample for C6 as stated: with the modulus-4 parameter set,
add is not commutative — the points (0, 0) and (2, 1) sum to (3, 1) in one
order and to (3, 2) in the other (the difference of x-coordinates is not
invertible modulo 4). -/
theorem add_not_commutative :
    CurvePoint.add junkCurve (.point 0 0) (.point 2 1) = .point 3 1
  ∧ CurvePoint.add junkCurve (.point 2 1) (.point 0 0) = .point 3 2
  ∧ CurvePoint.add junkCurve (.point 0 0) (.point 2 1)
      ≠ CurvePoint.add junkCurve (.point 2 1) (.point 0 0) := by decide

/-- Counterexample for C8 as stated: with the modulus-4 parameter set and
the point (0, 1), multiply 5 gives (3, 1) while five-fold repeated
addition gives (0, 1). -/
theorem multiply_ne_repeated_counterexample :
    CurvePoint.multiply junkCurve 5 (.point 0 1) = .point 3 1
  ∧ repeatedAdd junkCurve (.point 0 1) 5 = .point 0 1
  ∧ CurvePoint.multiply junkCurve 5 (.point 0 1)
      ≠ repeatedAdd junkCurve (.point 0 1) 5 := by decide

/-- Counterexample for C10 as stated: negate_point of weierstrass_curve.rs
performs no reduction, so on the modulus-11 test curve it maps the in-range
point (4, 2) to (4, -5), whose y-coordinate is negative. -/
theorem negate_point_out_of_range :
    coordinatesInRange testCurve.field_modulus (.point 4 2)
  ∧ WeierstrassCurve.negate_point testCurve (.point 4 2) = .point 4 (-5)
  ∧ ¬ coordinatesInRange testCurve.field_modulus (.point 4 (-5)) := by decide

/-! ## Coordinate ranges of the curve_point.rs operations -/

/-- Addition keeps affine coordinates inside the field range: computed
points are reduced with rem_euclid, and pass-through points are in range by
hypothesis. -/
theorem add_coordinatesInRange (C : CurveParams) (hm : 0 < C.field_modulus)
    {p q : Point} (hp : coordinatesInRange C.field_modulus p)
    (hq : coordinatesInRange C.field_modulus q) :
    coordinatesInRange C.field_modulus (CurvePoint.add C p q) := by
  cases p with
  | pointAtInfinity =>
    cases q with
    | pointAtInfinity => trivial
    | point x_q y_q => exact hq
  | point x_p y_p =>
    cases q with
    | pointAtInfinity => exact hp
    | point x_q y_q =>
      simp only [CurvePoint.add]
      split_ifs with h1 h2
      · exact ⟨Int.emod_nonneg _ (by omega), Int.emod_lt_of_pos _ hm,
          Int.emod_nonneg _ (by omega), Int.emod_lt_of_pos _ hm⟩
      · trivial
      · exact ⟨Int.emod_nonneg _ (by omega), Int.emod_lt_of_pos _ hm,
          Int.emod_nonneg _ (by omega), Int.emod_lt_of_pos _ hm⟩

/-- Negation keeps affine coordinates inside the field range: x passes
through and y is reduced with rem_euclid. -/
theorem negate_coordinatesInRange (C : CurveParams) (hm : 0 < C.field_modulus)
    {p : Point} (hp : coordinatesInRange C.field_modulus p) :
    coordinatesInRange C.field_modulus (CurvePoint.negate C p) := by
  cases p with
  | pointAtInfinity => trivial
  | point x y =>
    exact ⟨hp.1, hp.2.1, Int.emod_nonneg _ (by omega), Int.emod_lt_of_pos _ hm⟩

theorem doubleCache_coordinatesInRange (C : CurveParams) (hm : 0 < C.field_modulus)
    {p : Point} (hp : coordinatesInRange C.field_modulus p) (i : Nat) :
    coordinatesInRange C.field_modulus (CurvePoint.doubleCache C p i) := by
  induction i with
  | zero => exact hp
  | succ n ih => exact add_coordinatesInRange C hm ih ih

theorem mulLoop_coordinatesInRange (C : CurveParams) (hm : 0 < C.field_modulus)
    {cache : Nat → Point}
    (hcache : ∀ i, coordinatesInRange C.field_modulus (cache i)) (fuel : Nat) :
    ∀ scalar result, coordinatesInRange C.field_modulus result →
      coordinatesInRange C.field_modulus
        (CurvePoint.mulLoop C cache fuel scalar result) := by
  induction fuel with
  | zero => intro scalar result hres; exact hres
  | succ n ih =>
    intro scalar result hres
    by_cases hs : scalar = 0
    · simpa [CurvePoint.mulLoop, hs] using hres
    · simp only [CurvePoint.mulLoop, hs, if_false]
      exact ih _ _ (add_coordinatesInRange C hm hres (hcache _))

theorem multiply_coordinatesInRange (C : CurveParams) (hm : 0 < C.field_modulus)
    {p : Point} (hp : coordinatesInRange C.field_modulus p) (k : Nat) :
    coordinatesInRange C.field_modulus (CurvePoint.multiply C k p) := by
  by_cases hk : k = 0
  · simp [CurvePoint.multiply, hk, coordinatesInRange]
  · simp only [CurvePoint.multiply, hk, if_false]
    exact mulLoop_coordinatesInRange C hm
      (doubleCache_coordinatesInRange C hm hp) k k .pointAtInfinity trivial

/-- C10 (amended): for every curve with positive field modulus, the
operations of curve_point.rs (add, negate, multiply) keep every affine
coordinate in the range from 0 inclusive to m exclusive whenever their
affine inputs are in that range, because every computed coordinate is
reduced with the Euclidean remainder.  (As stated the claim also covered
the negate_point of weierstrass_curve.rs, which performs no reduction and
can output a negative y-coordinate; see the counterexample.) -/
theorem curvePoint_ops_in_range (C : CurveParams) (hm : 0 < C.field_modulus)
    (p q : Point) (hp : coordinatesInRange C.field_modulus p)
    (hq : coordinatesInRange C.field_modulus q) (k : Nat) :
    coordinatesInRange C.field_modulus (CurvePoint.add C p q)
  ∧ coordinatesInRange C.field_modulus (CurvePoint.negate C p)
  ∧ coordinatesInRange C.field_modulus (CurvePoint.multiply C k p) :=
  ⟨add_coordinatesInRange C hm hp hq, negate_coordinatesInRange C hm hp,
   multiply_coordinatesInRange C hm hp k⟩

/-- Witness for C10: the range invariant instantiated on the test curve at
the points (4, 10) and (7, 7) with scalar 3. -/
theorem curvePoint_ops_in_range_witness :
    coordinatesInRange testCurve.field_modulus
      (CurvePoint.add testCurve (.point 4 10) (.point 7 7))
  ∧ coordinatesInRange testCurve.field_modulus
      (CurvePoint.negate testCurve (.point 4 10))
  ∧ coordinatesInRange testCurve.field_modulus
      (CurvePoint.multiply testCurve 3 (.point 4 10)) :=
  curvePoint_ops_in_range testCurve (by decide) (.point 4 10) (.point 7 7)
    (by decide) (by decide) 3

/-! ## Scalar multiplication against repeated addition -/

theorem log2Fuel_le (fuel : Nat) :
    ∀ n, n ≠ 0 → n ≤ fuel → 2 ^ log2Fuel fuel n ≤ n := by
  induction fuel with
  | zero => intro n h hle; omega
  | succ m ih =>
    intro n h hle
    by_cases h2 : n ≥ 2
    · simp only [log2Fuel, if_pos h2]
      have hd : n / 2 ≠ 0 := by omega
      have hdle : n / 2 ≤ m := by omega
      have hrec := ih (n / 2) hd hdle
      have hpow : 2 ^ (log2Fuel m (n / 2) + 1) = 2 * 2 ^ log2Fuel m (n / 2) := by
        ring
      omega
    · simp only [log2Fuel, if_neg h2]
      omega

/-- For positive n, two to the power bits() - 1 is at most n (the highest
set bit is part of n). -/
theorem bitsMinusOne_spec (n : Nat) (h : n ≠ 0) : 2 ^ bitsMinusOne n ≤ n :=
  log2Fuel_le n n h le_rfl

/-- The point at infinity is a right identity of add, by definition. -/
theorem add_infinity_right (C : CurveParams) (p : Point) :
    CurvePoint.add C p .pointAtInfinity = p := by
  cases p <;> rfl

/-- The point at infinity is a left identity of add, by definition. -/
theorem add_infinity_left (C : CurveParams) (p : Point) :
    CurvePoint.add C .pointAtInfinity p = p := by
  cases p <;> rfl

/-- A set of points enlarged with the point at infinity. -/
def withInfinity (S : Point → Prop) : Point → Prop :=
  fun x => S x ∨ x = .pointAtInfinity

theorem withInfinity_closed (C : CurveParams) (S : Point → Prop)
    (hclosed : ∀ x y, S x → S y → S (CurvePoint.add C x y)) :
    ∀ x y, withInfinity S x → withInfinity S y →
      withInfinity S (CurvePoint.add C x y) := by
  rintro x y (hx | rfl) (hy | rfl)
  · exact Or.inl (hclosed x y hx hy)
  · rw [add_infinity_right]; exact Or.inl hx
  · rw [add_infinity_left]; exact Or.inl hy
  · exact Or.inr rfl

theorem withInfinity_assoc (C : CurveParams) (S : Point → Prop)
    (hassoc : ∀ x y z, S x → S y → S z →
      CurvePoint.add C (CurvePoint.add C x y) z
        = CurvePoint.add C x (CurvePoint.add C y z)) :
    ∀ x y z, withInfinity S x → withInfinity S y → withInfinity S z →
      CurvePoint.add C (CurvePoint.add C x y) z
        = CurvePoint.add C x (CurvePoint.add C y z) := by
  rintro x y z (hx | rfl) (hy | rfl) (hz | rfl) <;>
    first
      | exact hassoc x y z hx hy hz
      | simp only [add_infinity_left, add_infinity_right]

theorem repeatedAdd_mem (C : CurveParams) (S : Point → Prop)
    (hclosed : ∀ x y, S x → S y → S (CurvePoint.add C x y))
    (p : Point) (hp : S p) :
    ∀ n, withInfinity S (repeatedAdd C p n) := by
  intro n
  induction n with
  | zero => exact Or.inr rfl
  | succ m ih =>
    exact withInfinity_closed C S hclosed _ p ih (Or.inl hp)

theorem repeatedAdd_add (C : CurveParams) (S : Point → Prop)
    (hclosed : ∀ x y, S x → S y → S (CurvePoint.add C x y))
    (hassoc : ∀ x y z, S x → S y → S z →
      CurvePoint.add C (CurvePoint.add C x y) z
        = CurvePoint.add C x (CurvePoint.add C y z))
    (p : Point) (hp : S p) (m : Nat) :
    ∀ n, repeatedAdd C p (m + n)
      = CurvePoint.add C (repeatedAdd C p m) (repeatedAdd C p n) := by
  intro n
  induction n with
  | zero => rw [Nat.add_zero]; exact (add_infinity_right C _).symm
  | succ k ih =>
    have hmem := repeatedAdd_mem C S hclosed p hp
    calc repeatedAdd C p (m + (k + 1))
        = CurvePoint.add C (repeatedAdd C p (m + k)) p := rfl
      _ = CurvePoint.add C
            (CurvePoint.add C (repeatedAdd C p m) (repeatedAdd C p k)) p := by
          rw [ih]
      _ = CurvePoint.add C (repeatedAdd C p m)
            (CurvePoint.add C (repeatedAdd C p k) p) :=
          withInfinity_assoc C S hassoc _ _ p (hmem m) (hmem k) (Or.inl hp)
      _ = CurvePoint.add C (repeatedAdd C p m) (repeatedAdd C p (k + 1)) := rfl

theorem doubleCache_eq_repeatedAdd (C : CurveParams) (S : Point → Prop)
    (hclosed : ∀ x y, S x → S y → S (CurvePoint.add C x y))
    (hassoc : ∀ x y z, S x → S y → S z →
      CurvePoint.add C (CurvePoint.add C x y) z
        = CurvePoint.add C x (CurvePoint.add C y z))
    (p : Point) (hp : S p) :
    ∀ i, CurvePoint.doubleCache C p i = repeatedAdd C p (2 ^ i) := by
  intro i
  induction i with
  | zero =>
    show p = repeatedAdd C p 1
    exact (add_infinity_left C p).symm
  | succ k ih =>
    calc CurvePoint.doubleCache C p (k + 1)
        = CurvePoint.add C (CurvePoint.doubleCache C p k)
            (CurvePoint.doubleCache C p k) := rfl
      _ = CurvePoint.add C (repeatedAdd C p (2 ^ k)) (repeatedAdd C p (2 ^ k)) := by
          rw [ih]
      _ = repeatedAdd C p (2 ^ k + 2 ^ k) :=
          (repeatedAdd_add C S hclosed hassoc p hp _ _).symm
      _ = repeatedAdd C p (2 ^ (k + 1)) := by ring_nf

theorem mulLoop_eq_repeatedAdd (C : CurveParams) (S : Point → Prop)
    (hclosed : ∀ x y, S x → S y → S (CurvePoint.add C x y))
    (hassoc : ∀ x y z, S x → S y → S z →
      CurvePoint.add C (CurvePoint.add C x y) z
        = CurvePoint.add C x (CurvePoint.add C y z))
    (p : Point) (hp : S p) (fuel : Nat) :
    ∀ scalar result, scalar ≤ fuel → withInfinity S result →
      CurvePoint.mulLoop C (CurvePoint.doubleCache C p) fuel scalar result
        = CurvePoint.add C result (repeatedAdd C p scalar) := by
  induction fuel with
  | zero =>
    intro scalar result h hres
    have hs : scalar = 0 := by omega
    subst hs
    exact (add_infinity_right C result).symm
  | succ n ih =>
    intro scalar result h hres
    by_cases hs : scalar = 0
    · subst hs
      simp only [CurvePoint.mulLoop, if_pos rfl]
      exact (add_infinity_right C result).symm
    · simp only [CurvePoint.mulLoop, hs, if_false]
      have hpow : 2 ^ bitsMinusOne scalar ≤ scalar := bitsMinusOne_spec scalar hs
      have hpowpos : 0 < 2 ^ bitsMinusOne scalar := Nat.pos_pow_of_pos _ (by omega)
      have hmem := repeatedAdd_mem C S hclosed p hp
      have hcachemem : withInfinity S (CurvePoint.doubleCache C p (bitsMinusOne scalar)) := by
        rw [doubleCache_eq_repeatedAdd C S hclosed hassoc p hp]
        exact hmem _
      calc CurvePoint.mulLoop C (CurvePoint.doubleCache C p) n
            (scalar - 2 ^ bitsMinusOne scalar)
            (CurvePoint.add C result (CurvePoint.doubleCache C p (bitsMinusOne scalar)))
          = CurvePoint.add C
              (CurvePoint.add C result (CurvePoint.doubleCache C p (bitsMinusOne scalar)))
              (repeatedAdd C p (scalar - 2 ^ bitsMinusOne scalar)) :=
            ih (scalar - 2 ^ bitsMinusOne scalar)
              (CurvePoint.add C result
                (CurvePoint.doubleCache C p (bitsMinusOne scalar)))
              (by omega)
              (withInfinity_closed C S hclosed _ _ hres hcachemem)
        _ = CurvePoint.add C
              (CurvePoint.add C result (repeatedAdd C p (2 ^ bitsMinusOne scalar)))
              (repeatedAdd C p (scalar - 2 ^ bitsMinusOne scalar)) := by
            rw [doubleCache_eq_repeatedAdd C S hclosed hassoc p hp]
        _ = CurvePoint.add C result
              (CurvePoint.add C (repeatedAdd C p (2 ^ bitsMinusOne scalar))
                (repeatedAdd C p (scalar - 2 ^ bitsMinusOne scalar))) :=
            withInfinity_assoc C S hassoc _ _ _ hres (hmem _) (hmem _)
        _ = CurvePoint.add C result
              (repeatedAdd C p (2 ^ bitsMinusOne scalar
                + (scalar - 2 ^ bitsMinusOne scalar))) := by
            rw [repeatedAdd_add C S hclosed hassoc p hp]
        _ = CurvePoint.add C result (repeatedAdd C p scalar) := by
            have hsum : 2 ^ bitsMinusOne scalar
                + (scalar - 2 ^ bitsMinusOne scalar) = scalar := by omega
            rw [hsum]

/-- C8 (amended): multiply 0 p is the point at infinity unconditionally,
and whenever add is associative on a set of points that contains p and is
closed under add, multiply k p equals the k-fold repeated addition
p + p + ... starting from the point at infinity.  (As stated, with no
condition on the curve, the claim fails: see the counterexample on the
modulus-4 parameter set, where add is not even commutative.) -/
theorem multiply_eq_repeatedAdd (C : CurveParams) (S : Point → Prop)
    (hclosed : ∀ x y, S x → S y → S (CurvePoint.add C x y))
    (hassoc : ∀ x y z, S x → S y → S z →
      CurvePoint.add C (CurvePoint.add C x y) z
        = CurvePoint.add C x (CurvePoint.add C y z))
    (p : Point) (hp : S p) (k : Nat) :
    CurvePoint.multiply C k p = repeatedAdd C p k
  ∧ CurvePoint.multiply C 0 p = .pointAtInfinity := by
  refine ⟨?_, rfl⟩
  by_cases hk : k = 0
  · subst hk; rfl
  · simp only [CurvePoint.multiply, hk, if_false]
    rw [mulLoop_eq_repeatedAdd C S hclosed hassoc p hp k k .pointAtInfinity
      le_rfl (Or.inr rfl)]
    exact add_infinity_left C _

/-- Witness for C8: on the singleton set containing only the point at
infinity (closed and associative by definition), multiply agrees with
repeated addition at scalar 5. -/
theorem multiply_eq_repeatedAdd_witness :
    CurvePoint.multiply testCurve 5 .pointAtInfinity
      = repeatedAdd testCurve .pointAtInfinity 5
  ∧ CurvePoint.multiply testCurve 0 .pointAtInfinity = .pointAtInfinity :=
  multiply_eq_repeatedAdd testCurve (fun x => x = .pointAtInfinity)
    (fun x y hx hy => by subst hx; subst hy; rfl)
    (fun x y z hx hy hz => by subst hx; subst hy; subst hz; rfl)
    .pointAtInfinity rfl 5

/-! ## Identity and commutativity of addition over a prime field -/

/-- Two inverses of the same unit are congruent. -/
theorem modEq_inv_unique {m d x y : Int}
    (hx : d * x ≡ 1 [ZMOD m]) (hy : d * y ≡ 1 [ZMOD m]) : x ≡ y [ZMOD m] := by
  calc x = x * 1 := (mul_one x).symm
    _ ≡ x * (d * y) [ZMOD m] := (hy.mul_left x).symm
    _ = y * (d * x) := by ring
    _ ≡ y * 1 [ZMOD m] := hx.mul_left y
    _ = y := mul_one y

/-- A nonzero integer strictly between -m and m is coprime to a prime m. -/
theorem gcd_eq_one_of_prime_bound {m d : Int} (hm : Prime m) (hd : d ≠ 0)
    (hlow : -m < d) (hhigh : d < m) : Int.gcd d m = 1 := by
  have hnat : Nat.Prime m.natAbs := Int.prime_iff_natAbs_prime.mp hm
  have hdvd : Int.gcd d m ∣ m.natAbs := by
    rw [Int.gcd_def]; exact Nat.gcd_dvd_right _ _
  rcases hnat.eq_one_or_self_of_dvd _ hdvd with h1 | hs
  · exact h1
  · exfalso
    have hdd : Int.gcd d m ∣ d.natAbs := by
      rw [Int.gcd_def]; exact Nat.gcd_dvd_left _ _
    rw [hs] at hdd
    have h2 : d.natAbs < m.natAbs := by omega
    have h3 : 0 < d.natAbs := Int.natAbs_pos.mpr hd
    have h4 := Nat.le_of_dvd h3 hdd
    omega

/-- Swapping the two points of the chord branch produces the same reduced
coordinates, provided the difference of x-coordinates is coprime to the
modulus.  The two sides are exactly the chord expressions of add for
(p, q) and for (q, p). -/
theorem chord_comm (m x_p y_p x_q y_q : Int)
    (hgcd : Int.gcd (x_q - x_p) m = 1) :
    Int.emod ((Int.emod ((y_q - y_p) * mod_mul_inverse (x_q - x_p) m) m) ^ 2
        - x_p - x_q) m
      = Int.emod ((Int.emod ((y_p - y_q) * mod_mul_inverse (x_p - x_q) m) m) ^ 2
        - x_q - x_p) m
  ∧ Int.emod ((Int.emod ((y_q - y_p) * mod_mul_inverse (x_q - x_p) m) m)
        * (x_p - Int.emod ((Int.emod ((y_q - y_p)
            * mod_mul_inverse (x_q - x_p) m) m) ^ 2 - x_p - x_q) m) - y_p) m
      = Int.emod ((Int.emod ((y_p - y_q) * mod_mul_inverse (x_p - x_q) m) m)
        * (x_q - Int.emod ((Int.emod ((y_p - y_q)
            * mod_mul_inverse (x_p - x_q) m) m) ^ 2 - x_q - x_p) m) - y_q) m := by
  set i := mod_mul_inverse (x_q - x_p) m with hidef
  set j := mod_mul_inverse (x_p - x_q) m with hjdef
  have hdi : (x_q - x_p) * i ≡ 1 [ZMOD m] := mod_mul_inverse_mul_modEq _ m hgcd
  have hgcd2 : Int.gcd (x_p - x_q) m = 1 := by
    have hne : x_p - x_q = -(x_q - x_p) := by ring
    rw [hne, Int.neg_gcd]; exact hgcd
  have hdj : (x_p - x_q) * j ≡ 1 [ZMOD m] := mod_mul_inverse_mul_modEq _ m hgcd2
  have hnegj : (x_q - x_p) * (-j) ≡ 1 [ZMOD m] := by
    calc (x_q - x_p) * (-j) = (x_p - x_q) * j := by ring
      _ ≡ 1 [ZMOD m] := hdj
  have hinv : -j ≡ i [ZMOD m] := modEq_inv_unique hnegj hdi
  have hlam : (y_p - y_q) * j ≡ (y_q - y_p) * i [ZMOD m] := by
    calc (y_p - y_q) * j = (y_q - y_p) * (-j) := by ring
      _ ≡ (y_q - y_p) * i [ZMOD m] := hinv.mul_left _
  have hL : Int.emod ((y_p - y_q) * j) m = Int.emod ((y_q - y_p) * i) m := hlam
  rw [hL]
  set L := Int.emod ((y_q - y_p) * i) m with hLdef
  have hxr : L ^ 2 - x_q - x_p = L ^ 2 - x_p - x_q := by ring
  rw [hxr]
  refine ⟨rfl, ?_⟩
  have hmodL : L ≡ (y_q - y_p) * i [ZMOD m] := Int.mod_modEq _ m
  have h5 : L * (x_p - x_q) ≡ y_p - y_q [ZMOD m] := by
    calc L * (x_p - x_q) ≡ (y_q - y_p) * i * (x_p - x_q) [ZMOD m] :=
          hmodL.mul_right _
      _ = -((y_q - y_p) * ((x_q - x_p) * i)) := by ring
      _ ≡ -((y_q - y_p) * 1) [ZMOD m] := (hdi.mul_left _).neg
      _ = y_p - y_q := by ring
  show Int.ModEq m _ _
  rw [Int.modEq_iff_dvd] at h5 ⊢
  obtain ⟨c, hc⟩ := h5
  exact ⟨c, by linear_combination hc⟩

/-- C6 (amended): for every curve, the point at infinity is a two-sided
identity of add for every point; and whenever the field modulus is prime
and both points have their affine coordinates reduced into the field range,
add is commutative.  (As stated, with no condition on the modulus or the
coordinates, commutativity fails: see the counterexample with modulus 4.) -/
theorem add_identity_and_comm (C : CurveParams) (hm : Prime C.field_modulus)
    (p q : Point) (hp : coordinatesInRange C.field_modulus p)
    (hq : coordinatesInRange C.field_modulus q) :
    CurvePoint.add C p .pointAtInfinity = p
  ∧ CurvePoint.add C .pointAtInfinity p = p
  ∧ CurvePoint.add C p q = CurvePoint.add C q p := by
  refine ⟨add_infinity_right C p, add_infinity_left C p, ?_⟩
  cases p with
  | pointAtInfinity =>
    cases q with
    | pointAtInfinity => rfl
    | point x_q y_q => rfl
  | point x_p y_p =>
    cases q with
    | pointAtInfinity => rfl
    | point x_q y_q =>
      by_cases heq : x_p = x_q ∧ y_p = y_q
      · obtain ⟨h1, h2⟩ := heq
        subst h1; subst h2; rfl
      · by_cases hx : x_p = x_q
        · subst hx
          have hy : y_p ≠ y_q := fun h => heq ⟨rfl, h⟩
          simp [CurvePoint.add, hy, Ne.symm hy]
        · have heq' : ¬(x_q = x_p ∧ y_q = y_p) := fun h => hx h.1.symm
          have hx' : ¬ x_q = x_p := fun h => hx h.symm
          obtain ⟨hxp0, hxpm, hyp0, hypm⟩ := hp
          obtain ⟨hxq0, hxqm, hyq0, hyqm⟩ := hq
          have hd0 : x_q - x_p ≠ 0 := fun h => hx (by omega)
          have hgcd : Int.gcd (x_q - x_p) C.field_modulus = 1 :=
            gcd_eq_one_of_prime_bound hm hd0 (by omega) (by omega)
          obtain ⟨hX, hY⟩ := chord_comm C.field_modulus x_p y_p x_q y_q hgcd
          simp only [CurvePoint.add, if_neg heq, if_neg hx, if_neg heq', if_neg hx',
            Point.point.injEq]
          exact ⟨hX, hY⟩

/-- Witness for C6: the identity and commutativity conclusions on the test
curve over the prime 11 at the reduced points (4, 10) and (1, 2). -/
theorem add_identity_and_comm_witness :
    CurvePoint.add testCurve (.point 4 10) .pointAtInfinity = .point 4 10
  ∧ CurvePoint.add testCurve .pointAtInfinity (.point 4 10) = .point 4 10
  ∧ CurvePoint.add testCurve (.point 4 10) (.point 1 2)
      = CurvePoint.add testCurve (.point 1 2) (.point 4 10) :=
  add_identity_and_comm testCurve
    (by have h11 : testCurve.field_modulus = 11 := rfl; rw [h11]; norm_num)
    (.point 4 10) (.point 1 2) (by decide) (by decide)
